import Mathlib

/-!
Verification development for the seller-apis inventory synchronizer
(`seller.py` for platform A / Ozon, `market.py` for platform B / Yandex
Market).  The pure transformation core of both modules is embedded
shallowly below: Python strings become `String` (or `List Char` where
character-level operations are involved), Python `dict.get` on possibly
missing cells becomes `Option`, exceptions become `Option`/`none`, and
in-place list mutation (`offer_ids.remove`) becomes explicit state
passing that returns the final contents of the mutated list.
-/

namespace SellerApis

/-- Whitespace characters stripped by Python `int(str)` before parsing
(space, tab, newline, carriage return, vertical tab, form feed). -/
def isPySpace (c : Char) : Bool :=
  c = ' ' || c = '\t' || c = '\n' || c = '\r' || c = '\x0b' || c = '\x0c'

/-- Value of a list of ASCII decimal digits read left to right. -/
def digitsToNat (l : List Char) : Nat :=
  l.foldl (fun acc c => acc * 10 + (c.toNat - '0'.toNat)) 0

/-- Model of the Python builtin `int(s)` on a character list: strip
surrounding whitespace, allow one optional sign, then require a
non-empty run of ASCII digits; anything else raises `ValueError`,
modelled as `none`.  (PEP 515 underscore grouping is not modelled: the
supplier quantity cells are plain numerals.) -/
def pyIntChars (cs : List Char) : Option Int :=
  let t := ((cs.dropWhile isPySpace).reverse.dropWhile isPySpace).reverse
  match t with
  | [] => none
  | '+' :: rest =>
      if rest ≠ [] ∧ rest.all Char.isDigit then some (digitsToNat rest) else none
  | '-' :: rest =>
      if rest ≠ [] ∧ rest.all Char.isDigit then some (-(digitsToNat rest : Int)) else none
  | _ =>
      if t.all Char.isDigit then some (digitsToNat t) else none

/-- Model of Python `int(s)` on a `String`. -/
def pyInt (s : String) : Option Int :=
  pyIntChars s.data

/-- The quantity-normalization rule inlined in both `create_stocks`
bodies (`seller.py` lines 196-202, `market.py` lines 172-178): the
token `">10"` means a stock of 100, the literal `"1"` means a stock of
0, any other string is handed to Python `int`, whose failure on
non-numeric input is `none`. -/
def normalize_quantity (count : String) : Option Int :=
  if count = ">10" then some 100
  else if count = "1" then some 0
  else pyInt count

/-- One row of the supplier spreadsheet as produced by
`download_stock` (`pd.read_excel(...).to_dict(orient="records")`).
The code consults three columns: the product code (column `Код`) and
the quantity (column `Количество`), both read through `str(...)` and
therefore plain strings here, and the price (column `Цена`), passed to
`price_conversion` without coercion, so a missing cell (`None`) is
`none`. -/
structure WatchRecord where
  kod : String
  kolichestvo : String
  tsena : Option String
deriving Repr, DecidableEq

/-- A platform-A stock payload record (`{"offer_id": ..., "stock": ...}`,
`seller.py` line 203). -/
structure StockEntry where
  offer_id : String
  stock : Int
deriving Repr, DecidableEq

/-- The first loop of `create_stocks` (`seller.py` lines 194-204): scan
the supplier records in order; when a record's code is in the current
`offer_ids` list, normalize its quantity (a `ValueError` from `int`
aborts the whole call: `none`), append a stock entry and remove the
code from `offer_ids` (`list.remove` deletes the first occurrence,
modelled by `List.erase`).  Returns the accumulated entries together
with the final contents of the mutated `offer_ids` list. -/
def create_stocks_loop : List WatchRecord → List String →
    Option (List StockEntry × List String)
  | [], offer_ids => some ([], offer_ids)
  | w :: ws, offer_ids =>
      if w.kod ∈ offer_ids then
        match normalize_quantity w.kolichestvo with
        | none => none
        | some n =>
            match create_stocks_loop ws (offer_ids.erase w.kod) with
            | none => none
            | some (st, rest) => some (⟨w.kod, n⟩ :: st, rest)
      else create_stocks_loop ws offer_ids

/-- `create_stocks` of `seller.py` (lines 177-207): after the matching
loop, a zero-count entry is appended for every offer id left in the
(now mutated) `offer_ids` list.  The second component is the final
contents of the caller's `offer_ids` list, which the Python code
mutates in place. -/
def create_stocks (watch_remnants : List WatchRecord)
    (offer_ids : List String) :
    Option (List StockEntry × List String) :=
  match create_stocks_loop watch_remnants offer_ids with
  | none => none
  | some (st, rest) =>
      some (st ++ rest.map (fun oid => ⟨oid, 0⟩), rest)

/-- Python `str.split` on a one-character separator, over character
lists: `pySplit sep cs` is the list of separator-free segments;
splitting the empty string yields `[[]]`, matching Python
`"".split(".") == [""]`. -/
def pySplit (sep : Char) : List Char → List (List Char)
  | [] => [[]]
  | c :: cs =>
      if c = sep then [] :: pySplit sep cs
      else
        match pySplit sep cs with
        | [] => [[c]]
        | p :: ps => (c :: p) :: ps

/-- `price_conversion` of `seller.py` (lines 238-254):
`re.sub("[^0-9]", "", price.split(".")[0])` — take the segment before
the first `.` and delete every character that is not an ASCII digit
(`Char.isDigit` is exactly `0`-`9`). -/
def price_conversion (price : String) : String :=
  String.mk (((pySplit '.' price.data).headD []).filter Char.isDigit)

/-- Calling `price_conversion` on the raw value of a possibly missing
spreadsheet cell (`watch.get("Цена")`): passing `None` to
`price.split` raises `AttributeError`/`TypeError`, modelled as
`none`. -/
def price_conversion_cell (price : Option String) : Option String :=
  match price with
  | none => none
  | some p => some (price_conversion p)

/-- A platform-A price payload record (`seller.py` lines 227-233). -/
structure PriceEntry where
  auto_action_enabled : String
  currency_code : String
  offer_id : String
  old_price : String
  price : String
deriving Repr, DecidableEq

/-- `create_prices` of `seller.py` (lines 210-235): for every supplier
record whose code is in `offer_ids` (which this function never
mutates), emit a price entry built from the normalized price; a `None`
price cell on a matched record raises, i.e. yields `none`. -/
def create_prices : List WatchRecord → List String → Option (List PriceEntry)
  | [], _ => some []
  | w :: ws, offer_ids =>
      if w.kod ∈ offer_ids then
        match price_conversion_cell w.tsena with
        | none => none
        | some p =>
            match create_prices ws offer_ids with
            | none => none
            | some ps =>
                some ({ auto_action_enabled := "UNKNOWN",
                        currency_code := "RUB",
                        offer_id := w.kod,
                        old_price := "0",
                        price := p } :: ps)
      else create_prices ws offer_ids

/-- The generator `divide` of `seller.py` (lines 257-272) for a
positive chunk size: `divideGo n lst` yields the consecutive slices
`lst[i : i + (n+1)]` for `i = 0, n+1, 2(n+1), ...` — the chunk size is
`n + 1`, making termination structural in the length. -/
def divideGo (n : Nat) : List α → List (List α)
  | [] => []
  | a :: l => ((a :: l).take (n + 1)) :: divideGo n (l.drop n)
termination_by l => l.length
decreasing_by
  simp only [List.length_cons]
  exact Nat.lt_succ_of_le (List.length_drop n l ▸ Nat.sub_le l.length n)

/-- `divide(lst, n)`: `for i in range(0, len(lst), n): yield lst[i:i+n]`.
Python `range` raises `ValueError` for a zero step, modelled as
`none`; for `n ≥ 1` the chunks are produced by `divideGo`. -/
def divide (lst : List α) (n : Nat) : Option (List (List α)) :=
  match n with
  | 0 => none
  | m + 1 => some (divideGo m lst)

/-- One element of the `items` list of a platform-B stock payload
record (`market.py` lines 184-188 and 199-203): a count, the constant
type `"FIT"`, and the `updatedAt` timestamp string. -/
structure MarketStockItem where
  count : Int
  type : String
  updatedAt : String
deriving Repr, DecidableEq

/-- A platform-B stock payload record (`market.py` lines 180-191):
`{"sku": ..., "warehouseId": ..., "items": [...]}`. -/
structure MarketStockEntry where
  sku : String
  warehouseId : String
  items : List MarketStockItem
deriving Repr, DecidableEq

/-- The matching loop of `market.py`'s `create_stocks` (lines
170-192): identical matching and quantity normalization to the
platform-A loop, but each entry carries the warehouse id and the
timestamp `date`. -/
def market_create_stocks_loop (warehouse_id date : String) :
    List WatchRecord → List String →
    Option (List MarketStockEntry × List String)
  | [], offer_ids => some ([], offer_ids)
  | w :: ws, offer_ids =>
      if w.kod ∈ offer_ids then
        match normalize_quantity w.kolichestvo with
        | none => none
        | some n =>
            match market_create_stocks_loop warehouse_id date ws
                (offer_ids.erase w.kod) with
            | none => none
            | some (st, rest) =>
                some (⟨w.kod, warehouse_id, [⟨n, "FIT", date⟩]⟩ :: st, rest)
      else market_create_stocks_loop warehouse_id date ws offer_ids

/-- `create_stocks` of `market.py` (lines 151-207).  The timestamp
`date` is computed exactly once, before the iteration starts (line
169, `datetime.datetime.utcnow()...`); the clock reading is a
parameter of the embedding.  After the matching loop a zero-count
entry is appended for every remaining offer id, carrying the same
`date`.  The second component is the final contents of the caller's
`offer_ids` list, which the Python code mutates in place. -/
def market_create_stocks (watch_remnants : List WatchRecord)
    (offer_ids : List String) (warehouse_id date : String) :
    Option (List MarketStockEntry × List String) :=
  match market_create_stocks_loop warehouse_id date watch_remnants offer_ids with
  | none => none
  | some (st, rest) =>
      some (st ++ rest.map (fun oid => ⟨oid, warehouse_id, [⟨0, "FIT", date⟩]⟩),
            rest)

/-- The `price` object of a platform-B price payload record
(`market.py` lines 230-235). -/
structure MarketPriceValue where
  value : Int
  currencyId : String
deriving Repr, DecidableEq

/-- A platform-B price payload record (`market.py` lines 227-238). -/
structure MarketPriceEntry where
  id : String
  price : MarketPriceValue
deriving Repr, DecidableEq

/-- `create_prices` of `market.py` (lines 210-240): like the
platform-A version but the normalized price string is additionally fed
to `int(...)`, whose failure (for example on an empty digit string) is
`none`. -/
def market_create_prices : List WatchRecord → List String →
    Option (List MarketPriceEntry)
  | [], _ => some []
  | w :: ws, offer_ids =>
      if w.kod ∈ offer_ids then
        match price_conversion_cell w.tsena with
        | none => none
        | some p =>
            match pyInt p with
            | none => none
            | some v =>
                match market_create_prices ws offer_ids with
                | none => none
                | some ps => some ({ id := w.kod, price := ⟨v, "RUR"⟩ } :: ps)
      else market_create_prices ws offer_ids

/-- One product item of a platform-A catalog page: the loop in
`get_offer_ids` (`seller.py` lines 79-82) only reads its
`offer_id`. -/
structure ProductA where
  offer_id : String
deriving Repr, DecidableEq

/-- One page returned by platform A's `POST /v2/product/list`
(`seller.py` `get_product_list`): the items, the server-reported
running total, and the cursor for the next request. -/
structure PageA where
  items : List ProductA
  total : Nat
  last_id : String
deriving Repr, DecidableEq

/-- The pagination loop of `seller.py`'s `get_offer_ids` (lines
70-78), with the server modelled as the sequence of responses it
returns (`server k` is the response to the `k`-th request; the
`last_id` cursor only influences which page the server sends, so any
behaviour of the real server is some such sequence).  Each iteration
extends the accumulated product list and stops when the reported
`total` equals the accumulated length.  The loop has no other exit, so
the embedding runs on `fuel` iterations and returns `none` when the
real loop would still be running. -/
def seller_offer_ids_loop (server : Nat → PageA) :
    Nat → Nat → List ProductA → Option (List ProductA)
  | 0, _, _ => none
  | fuel + 1, k, acc =>
      let resp := server k
      let acc2 := acc ++ resp.items
      if resp.total = acc2.length then some acc2
      else seller_offer_ids_loop server fuel (k + 1) acc2

/-- `get_offer_ids` of `seller.py` (lines 53-82): run the pagination
loop from an empty accumulator, then project every product to its
`offer_id`. -/
def seller_get_offer_ids (fuel : Nat) (server : Nat → PageA) :
    Option (List String) :=
  (seller_offer_ids_loop server fuel 0 []).map (List.map ProductA.offer_id)

/-- One `offerMappingEntries` element of a platform-B catalog page:
the loop in `get_offer_ids` (`market.py` lines 145-148) only reads
`offer.shopSku`. -/
structure OfferEntryB where
  shopSku : String
deriving Repr, DecidableEq

/-- One page returned by platform B's offer-mapping-entries endpoint
(`market.py` `get_product_list`): the entries and the server-issued
cursor `paging.nextPageToken` (`None` and `""` are both falsy in the
`if not page` test; both are modelled as `""`). -/
structure PageB where
  entries : List OfferEntryB
  nextPageToken : String
deriving Repr, DecidableEq

/-- The pagination loop of `market.py`'s `get_offer_ids` (lines
137-144), with the server modelled as its response sequence: each
iteration extends the accumulator and stops when the returned page
token is falsy.  Runs on `fuel` iterations, `none` when the real loop
would still be running. -/
def market_offer_ids_loop (server : Nat → PageB) :
    Nat → Nat → List OfferEntryB → Option (List OfferEntryB)
  | 0, _, _ => none
  | fuel + 1, k, acc =>
      let resp := server k
      let acc2 := acc ++ resp.entries
      if resp.nextPageToken = "" then some acc2
      else market_offer_ids_loop server fuel (k + 1) acc2

/-- `get_offer_ids` of `market.py` (lines 118-148): run the pagination
loop from an empty accumulator, then project every entry to its
`shopSku`. -/
def market_get_offer_ids (fuel : Nat) (server : Nat → PageB) :
    Option (List String) :=
  (market_offer_ids_loop server fuel 0 []).map (List.map OfferEntryB.shopSku)

/-- "The platform-A listing loop never returns, whatever the fuel":
the embedded form of an infinite `while True` loop in
`seller.get_offer_ids`. -/
def seller_listing_diverges (server : Nat → PageA) : Prop :=
  ∀ fuel : Nat, seller_get_offer_ids fuel server = none

/-- "The platform-B listing loop never returns, whatever the fuel". -/
def market_listing_diverges (server : Nat → PageB) : Prop :=
  ∀ fuel : Nat, market_get_offer_ids fuel server = none

/-- The environment `download_stock` (`seller.py` lines 143-174) runs
in: whether the HTTP GET of the supplier archive succeeds
(`response.raise_for_status()` raises otherwise, before anything is
extracted), and what `pd.read_excel(...).to_dict(orient="records")`
yields on the extracted file — `none` when parsing raises. -/
structure FeedEnv where
  httpOk : Bool
  parsed : Option (List WatchRecord)
deriving Repr, DecidableEq

/-- Effect trace of `download_stock` (`seller.py` lines 160-174).
First component: the returned record list, `none` when an exception
escapes.  Second component: whether the extracted spreadsheet file
`ostatki.xls` is still on disk when control leaves the function.  The
source runs `os.remove("./ostatki.xls")` only on the straight-line
path after a successful `read_excel`: a download failure raises before
extraction (no file was created), while a parse failure raises after
extraction and skips the removal, leaving the file behind. -/
def download_stock (env : FeedEnv) : Option (List WatchRecord) × Bool :=
  if env.httpOk = false then (none, false)
  else
    match env.parsed with
    | none => (none, true)
    | some ws => (some ws, false)

/-- The platform-B stock entry obtained from a platform-A entry by
attaching the warehouse id and timestamp; used only to relate the two
`create_stocks` embeddings. -/
def toMarketStockEntry (warehouse_id date : String) (e : StockEntry) :
    MarketStockEntry :=
  ⟨e.offer_id, warehouse_id, [⟨e.stock, "FIT", date⟩]⟩

/-- The price normalizer as the spec describes it, stated
independently of the source: keep the characters before the first
`.`, then keep only the ASCII digits. -/
def normalize_price_spec (s : String) : String :=
  String.mk ((s.data.takeWhile (fun c => c != '.')).filter Char.isDigit)

end SellerApis

/-- Quick sanity examples for the quantity normalizer. -/
example : SellerApis.normalize_quantity ">10" = some 100 := by decide
example : SellerApis.normalize_quantity "1" = some 0 := by decide
example : SellerApis.normalize_quantity "7" = some 7 := by decide
example : SellerApis.normalize_quantity "0" = some 0 := by decide
example : SellerApis.normalize_quantity "abc" = none := by decide
example : SellerApis.normalize_quantity " 12 " = some 12 := by decide
example : SellerApis.normalize_quantity "-3" = some (-3) := by decide
example : SellerApis.normalize_quantity "" = none := by decide

example :
    SellerApis.create_stocks
      [⟨"123", "5", none⟩] ["123"] = some ([⟨"123", 5⟩], []) := by decide

example :
    SellerApis.create_stocks
      [⟨"A", "5", none⟩, ⟨"B", ">10", none⟩] ["A", "B", "C"]
      = some ([⟨"A", 5⟩, ⟨"B", 100⟩, ⟨"C", 0⟩], ["C"]) := by decide

example : SellerApis.price_conversion "5\x27990.00 руб." = "5990" := by decide
example : SellerApis.price_conversion "199.99 руб." = "199" := by decide
example :
    SellerApis.price_conversion "1\x27234\x27567.00 руб." = "1234567" := by decide

example :
    SellerApis.divide [1, 2, 3, 4] 2 = some [[1, 2], [3, 4]] := by
  simp [SellerApis.divide, SellerApis.divideGo]
example :
    SellerApis.divide [1, 2, 3, 4, 5] 2 = some [[1, 2], [3, 4], [5]] := by
  simp [SellerApis.divide, SellerApis.divideGo]
example : SellerApis.divide ([] : List Nat) 3 = some [] := by
  simp [SellerApis.divide, SellerApis.divideGo]
example : SellerApis.divide [1, 2] 0 = none := by decide

namespace SellerApis

lemma pySplit_ne_nil (sep : Char) (cs : List Char) : pySplit sep cs ≠ [] := by
  induction cs with
  | nil => simp [pySplit]
  | cons c cs ih =>
      by_cases h : c = sep
      · simp [pySplit, h]
      · rcases hsplit : pySplit sep cs with _ | ⟨p, ps⟩
        · exact absurd hsplit ih
        · simp [pySplit, h, hsplit]

lemma pySplit_headD (sep : Char) (cs : List Char) :
    (pySplit sep cs).headD [] = cs.takeWhile (fun c => c != sep) := by
  induction cs with
  | nil => simp [pySplit]
  | cons c cs ih =>
      by_cases h : c = sep
      · simp [pySplit, h, List.takeWhile_cons]
      · rcases hsplit : pySplit sep cs with _ | ⟨p, ps⟩
        · exact absurd hsplit (pySplit_ne_nil sep cs)
        · rw [hsplit] at ih
          simp only [List.headD_cons] at ih
          simp [pySplit, h, hsplit, List.takeWhile_cons, ih]

lemma price_conversion_eq_spec (s : String) :
    price_conversion s = normalize_price_spec s := by
  unfold price_conversion normalize_price_spec
  rw [pySplit_headD]

end SellerApis

/-- C1: each supplier quantity string consumed while building stock
entries is normalized by the rule inlined in both `create_stocks`
bodies: the more-than-ten token `">10"` yields 100, the literal `"1"`
yields 0, and every other string is parsed by Python `int`, which
fails (`none`) on non-numeric input. -/
theorem C1_quantity_normalization :
    SellerApis.normalize_quantity ">10" = some 100 ∧
    SellerApis.normalize_quantity "1" = some 0 ∧
    SellerApis.normalize_quantity "7" = some 7 ∧
    SellerApis.normalize_quantity "0" = some 0 ∧
    SellerApis.normalize_quantity "abc" = none ∧
    ∀ s : String, s ≠ ">10" → s ≠ "1" →
      SellerApis.normalize_quantity s = SellerApis.pyInt s := by
  refine ⟨by decide, by decide, by decide, by decide, by decide, ?_⟩
  intro s h1 h2
  simp [SellerApis.normalize_quantity, h1, h2]

/-- Witness for C1 at the concrete quantity string `"7"`. -/
theorem C1_quantity_normalization_witness :
    SellerApis.normalize_quantity "7" = SellerApis.pyInt "7" :=
  C1_quantity_normalization.2.2.2.2.2 "7" (by decide) (by decide)

/-- C4: `price_conversion` returns the part of its input before the
first `.` with every non-ASCII-digit character removed (so
`"5'990.00 руб."` becomes `"5990"` and `"1'234'567.00 руб."` becomes
`"1234567"`), and raises — modelled as `none` — when the price cell is
absent (`None`). -/
theorem C4_price_conversion :
    (∀ s : String,
        SellerApis.price_conversion s = SellerApis.normalize_price_spec s) ∧
    SellerApis.price_conversion "5\x27990.00 руб." = "5990" ∧
    SellerApis.price_conversion "199.99 руб." = "199" ∧
    SellerApis.price_conversion "1\x27234\x27567.00 руб." = "1234567" ∧
    SellerApis.price_conversion_cell none = none :=
  ⟨SellerApis.price_conversion_eq_spec, by decide, by decide, by decide, rfl⟩

namespace SellerApis

lemma divideGo_nil (n : Nat) : divideGo n ([] : List α) = [] := by
  simp [divideGo]

lemma divideGo_join (n : Nat) (l : List α) : (divideGo n l).flatten = l := by
  induction l using divideGo.induct n with
  | case1 => simp [divideGo]
  | case2 a l ih =>
      rw [divideGo]
      simp only [List.flatten_cons, ih, List.take_succ_cons, List.cons_append]
      rw [List.take_append_drop]

lemma divideGo_length_le (n : Nat) (l : List α) :
    ∀ c ∈ divideGo n l, c.length ≤ n + 1 := by
  induction l using divideGo.induct n with
  | case1 => simp [divideGo]
  | case2 a l ih =>
      rw [divideGo]
      intro c hc
      rcases List.mem_cons.1 hc with h | h
      · subst h
        exact le_trans (Nat.le_of_eq (List.length_take _ _)) (Nat.min_le_left _ _)
      · exact ih c h

lemma divideGo_dropLast_length (n : Nat) (l : List α) :
    ∀ c ∈ (divideGo n l).dropLast, c.length = n + 1 := by
  induction l using divideGo.induct n with
  | case1 => simp [divideGo]
  | case2 a l ih =>
      rw [divideGo]
      rcases hts : divideGo n (l.drop n) with _ | ⟨t, ts⟩
      · simp
      · intro c hc
        rw [List.dropLast_cons₂] at hc
        rcases List.mem_cons.1 hc with h | h
        · subst h
          have hdrop : l.drop n ≠ [] := by
            intro hnil
            rw [hnil, divideGo_nil] at hts
            exact List.noConfusion hts
          have hlen : n < l.length := by
            by_contra hle
            exact hdrop (List.drop_eq_nil_of_le (Nat.le_of_not_lt hle))
          simp [List.length_take, List.length_cons]
          omega
        · rw [← hts] at h
          exact ih c h

end SellerApis

/-- C3: for every list and chunk size `n ≥ 1`, `divide` succeeds, its
chunks concatenate back to the original list, every chunk has length
at most `n`, every chunk except possibly the last has length exactly
`n`, and dividing the empty list yields no chunks. -/
theorem C3_divide_chunking (α : Type) (lst : List α) (n : Nat) (hn : 1 ≤ n) :
    ∃ chunks, SellerApis.divide lst n = some chunks ∧
      chunks.flatten = lst ∧
      (∀ c ∈ chunks, c.length ≤ n) ∧
      (∀ c ∈ chunks.dropLast, c.length = n) ∧
      SellerApis.divide ([] : List α) n = some [] := by
  obtain ⟨m, rfl⟩ : ∃ m, n = m + 1 := ⟨n - 1, (Nat.succ_pred_eq_of_pos hn).symm⟩
  exact ⟨SellerApis.divideGo m lst, rfl, SellerApis.divideGo_join m lst,
    SellerApis.divideGo_length_le m lst,
    SellerApis.divideGo_dropLast_length m lst,
    by rw [SellerApis.divide]; rw [SellerApis.divideGo_nil]⟩

/-- Witness for C3 at the list `[1, 2, 3, 4, 5]` with chunk size 2. -/
theorem C3_divide_chunking_witness :
    1 ≤ 2 ∧ ∃ chunks, SellerApis.divide [1, 2, 3, 4, 5] 2 = some chunks ∧
      chunks.flatten = [1, 2, 3, 4, 5] ∧
      (∀ c ∈ chunks, c.length ≤ 2) ∧
      (∀ c ∈ chunks.dropLast, c.length = 2) ∧
      SellerApis.divide ([] : List Nat) 2 = some [] :=
  ⟨by decide, C3_divide_chunking Nat [1, 2, 3, 4, 5] 2 (by decide)⟩

namespace SellerApis

lemma create_stocks_loop_perm :
    ∀ (ws : List WatchRecord) (oids st : List _) (rest : List String),
      create_stocks_loop ws oids = some (st, rest) →
      List.Perm (st.map StockEntry.offer_id ++ rest) oids := by
  intro ws
  induction ws with
  | nil =>
      intro oids st rest h
      simp only [create_stocks_loop, Option.some.injEq, Prod.mk.injEq] at h
      rw [← h.1, ← h.2]
      simp
  | cons w ws ih =>
      intro oids st rest h
      rw [create_stocks_loop] at h
      by_cases hm : w.kod ∈ oids
      · rw [if_pos hm] at h
        rcases hn : normalize_quantity w.kolichestvo with _ | n
        · rw [hn] at h; exact absurd h (by simp)
        · rw [hn] at h
          rcases hl : create_stocks_loop ws (oids.erase w.kod) with _ | ⟨st', rest'⟩
          · rw [hl] at h; exact absurd h (by simp)
          · rw [hl] at h
            simp only [Option.some.injEq, Prod.mk.injEq] at h
            rw [← h.1, ← h.2]
            simp only [List.map_cons, List.cons_append]
            exact ((ih _ _ _ hl).cons w.kod).trans (List.perm_cons_erase hm).symm
      · rw [if_neg hm] at h
        exact ih _ _ _ h

lemma create_stocks_loop_matched_sublist :
    ∀ (ws : List WatchRecord) (oids st : List _) (rest : List String),
      create_stocks_loop ws oids = some (st, rest) →
      List.Sublist (st.map StockEntry.offer_id) (ws.map WatchRecord.kod) := by
  intro ws
  induction ws with
  | nil =>
      intro oids st rest h
      simp only [create_stocks_loop, Option.some.injEq, Prod.mk.injEq] at h
      rw [← h.1]
      simp
  | cons w ws ih =>
      intro oids st rest h
      rw [create_stocks_loop] at h
      by_cases hm : w.kod ∈ oids
      · rw [if_pos hm] at h
        rcases hn : normalize_quantity w.kolichestvo with _ | n
        · rw [hn] at h; exact absurd h (by simp)
        · rw [hn] at h
          rcases hl : create_stocks_loop ws (oids.erase w.kod) with _ | ⟨st', rest'⟩
          · rw [hl] at h; exact absurd h (by simp)
          · rw [hl] at h
            simp only [Option.some.injEq, Prod.mk.injEq] at h
            rw [← h.1]
            simp only [List.map_cons]
            exact (ih _ _ _ hl).cons₂ w.kod
      · rw [if_neg hm] at h
        exact (ih _ _ _ h).cons w.kod

lemma create_stocks_loop_rest_sublist :
    ∀ (ws : List WatchRecord) (oids st : List _) (rest : List String),
      create_stocks_loop ws oids = some (st, rest) →
      List.Sublist rest oids := by
  intro ws
  induction ws with
  | nil =>
      intro oids st rest h
      simp only [create_stocks_loop, Option.some.injEq, Prod.mk.injEq] at h
      rw [← h.2]
  | cons w ws ih =>
      intro oids st rest h
      rw [create_stocks_loop] at h
      by_cases hm : w.kod ∈ oids
      · rw [if_pos hm] at h
        rcases hn : normalize_quantity w.kolichestvo with _ | n
        · rw [hn] at h; exact absurd h (by simp)
        · rw [hn] at h
          rcases hl : create_stocks_loop ws (oids.erase w.kod) with _ | ⟨st', rest'⟩
          · rw [hl] at h; exact absurd h (by simp)
          · rw [hl] at h
            simp only [Option.some.injEq, Prod.mk.injEq] at h
            rw [← h.2]
            exact (ih _ _ _ hl).trans (List.erase_sublist w.kod oids)
      · rw [if_neg hm] at h
        exact ih _ _ _ h

lemma create_stocks_loop_mem :
    ∀ (ws : List WatchRecord) (oids st : List _) (rest : List String),
      create_stocks_loop ws oids = some (st, rest) →
      ∀ e ∈ st, e.offer_id ∈ oids := by
  intro ws
  induction ws with
  | nil =>
      intro oids st rest h
      simp only [create_stocks_loop, Option.some.injEq, Prod.mk.injEq] at h
      rw [← h.1]
      intro e he
      exact absurd he (List.not_mem_nil e)
  | cons w ws ih =>
      intro oids st rest h
      rw [create_stocks_loop] at h
      by_cases hm : w.kod ∈ oids
      · rw [if_pos hm] at h
        rcases hn : normalize_quantity w.kolichestvo with _ | n
        · rw [hn] at h; exact absurd h (by simp)
        · rw [hn] at h
          rcases hl : create_stocks_loop ws (oids.erase w.kod) with _ | ⟨st', rest'⟩
          · rw [hl] at h; exact absurd h (by simp)
          · rw [hl] at h
            simp only [Option.some.injEq, Prod.mk.injEq] at h
            rw [← h.1]
            intro e he
            rcases List.mem_cons.1 he with rfl | he'
            · exact hm
            · exact List.mem_of_mem_erase (ih _ _ _ hl e he')
      · rw [if_neg hm] at h
        exact ih _ _ _ h

end SellerApis

namespace SellerApis

lemma create_stocks_loop_first_match :
    ∀ (ws : List WatchRecord) (oids st : List _) (rest : List String),
      oids.Nodup →
      create_stocks_loop ws oids = some (st, rest) →
      ∀ e ∈ st, ∃ w,
        ws.find? (fun x => x.kod == e.offer_id) = some w ∧
        normalize_quantity w.kolichestvo = some e.stock := by
  intro ws
  induction ws with
  | nil =>
      intro oids st rest _ h
      simp only [create_stocks_loop, Option.some.injEq, Prod.mk.injEq] at h
      rw [← h.1]
      intro e he
      exact absurd he (List.not_mem_nil e)
  | cons w ws ih =>
      intro oids st rest hnd h
      rw [create_stocks_loop] at h
      by_cases hm : w.kod ∈ oids
      · rw [if_pos hm] at h
        rcases hn : normalize_quantity w.kolichestvo with _ | n
        · rw [hn] at h; exact absurd h (by simp)
        · rw [hn] at h
          rcases hl : create_stocks_loop ws (oids.erase w.kod) with _ | ⟨st', rest'⟩
          · rw [hl] at h; exact absurd h (by simp)
          · rw [hl] at h
            simp only [Option.some.injEq, Prod.mk.injEq] at h
            rw [← h.1]
            intro e he
            rcases List.mem_cons.1 he with rfl | he'
            · refine ⟨w, ?_, hn⟩
              exact List.find?_cons_of_pos ws (by simp)
            · have hmem : e.offer_id ∈ oids.erase w.kod :=
                create_stocks_loop_mem ws _ _ _ hl e he'
              have hne : e.offer_id ≠ w.kod :=
                ((List.Nodup.mem_erase_iff hnd).1 hmem).1
              obtain ⟨wx, hfind, hq⟩ := ih _ _ _ (hnd.erase w.kod) hl e he'
              refine ⟨wx, ?_, hq⟩
              rw [List.find?_cons_of_neg ws (by simp [hne.symm])]
              exact hfind
      · rw [if_neg hm] at h
        intro e he
        have hmem : e.offer_id ∈ oids := create_stocks_loop_mem ws _ _ _ h e he
        have hne : w.kod ≠ e.offer_id := fun hE => hm (hE ▸ hmem)
        obtain ⟨wx, hfind, hq⟩ := ih _ _ _ hnd h e he
        refine ⟨wx, ?_, hq⟩
        rw [List.find?_cons_of_neg ws (by simp [hne])]
        exact hfind

lemma market_create_stocks_loop_eq (warehouse_id date : String) :
    ∀ (ws : List WatchRecord) (oids : List String),
      market_create_stocks_loop warehouse_id date ws oids
        = (create_stocks_loop ws oids).map
            (fun p => (p.1.map (toMarketStockEntry warehouse_id date), p.2)) := by
  intro ws
  induction ws with
  | nil =>
      intro oids
      simp [market_create_stocks_loop, create_stocks_loop]
  | cons w ws ih =>
      intro oids
      rw [market_create_stocks_loop, create_stocks_loop]
      by_cases hm : w.kod ∈ oids
      · rw [if_pos hm, if_pos hm]
        rcases hn : normalize_quantity w.kolichestvo with _ | n
        · simp
        · rw [ih]
          rcases hl : create_stocks_loop ws (oids.erase w.kod) with _ | ⟨st', rest'⟩
          · simp
          · simp [toMarketStockEntry]
      · rw [if_neg hm, if_neg hm]
        exact ih oids

lemma market_create_stocks_eq (ws : List WatchRecord) (oids : List String)
    (warehouse_id date : String) :
    market_create_stocks ws oids warehouse_id date
      = (create_stocks ws oids).map
          (fun p => (p.1.map (toMarketStockEntry warehouse_id date), p.2)) := by
  rw [market_create_stocks, create_stocks,
    market_create_stocks_loop_eq warehouse_id date ws oids]
  rcases create_stocks_loop ws oids with _ | ⟨st, rest⟩
  · rfl
  · simp [toMarketStockEntry, Function.comp]

end SellerApis

namespace SellerApis

lemma create_stocks_ids_split (ws : List WatchRecord) (oids stocks : List _)
    (rest : List String)
    (h : create_stocks ws oids = some (stocks, rest)) :
    ∃ st, create_stocks_loop ws oids = some (st, rest) ∧
      stocks = st ++ rest.map (fun oid => ⟨oid, 0⟩) ∧
      stocks.map StockEntry.offer_id = st.map StockEntry.offer_id ++ rest := by
  rw [create_stocks] at h
  rcases hl : create_stocks_loop ws oids with _ | ⟨st, rest'⟩
  · rw [hl] at h; exact absurd h (by simp)
  · rw [hl] at h
    simp only [Option.some.injEq, Prod.mk.injEq] at h
    obtain ⟨h1, h2⟩ := h
    subst h2
    refine ⟨st, rfl, h1.symm, ?_⟩
    rw [← h1]
    simp only [List.map_append, List.map_map]
    have hcomp : (StockEntry.offer_id ∘ fun oid =>
        ({ offer_id := oid, stock := 0 } : StockEntry)) = id := rfl
    rw [hcomp, List.map_id]

lemma create_stocks_characterization (ws : List WatchRecord)
    (oids stocks : List _) (rest : List String) (hnd : oids.Nodup)
    (h : create_stocks ws oids = some (stocks, rest)) :
    (∀ oid : String, (stocks.map StockEntry.offer_id).count oid
        = if oid ∈ oids then 1 else 0) ∧
    ∃ matched, stocks = matched ++ rest.map (fun oid => ⟨oid, 0⟩) ∧
      List.Sublist (matched.map StockEntry.offer_id) (ws.map WatchRecord.kod) ∧
      List.Sublist rest oids := by
  obtain ⟨st, hl, hdecomp, hids⟩ := create_stocks_ids_split ws oids stocks rest h
  have hperm := create_stocks_loop_perm ws oids st rest hl
  constructor
  · intro oid
    rw [hids, hperm.count_eq oid]
    by_cases hmem : oid ∈ oids
    · rw [if_pos hmem, List.count_eq_one_of_mem hnd hmem]
    · rw [if_neg hmem, List.count_eq_zero_of_not_mem hmem]
  · exact ⟨st, hdecomp, create_stocks_loop_matched_sublist ws oids st rest hl,
      create_stocks_loop_rest_sublist ws oids st rest hl⟩

end SellerApis

/-- C2 (amended: the catalog offer-id list is assumed free of
duplicate identifiers): every run of `create_stocks` — on either
platform — produces a stock entry set in which every known offer
identifier appears exactly once, either matched to a supplier record
or defaulted to a zero count, with the matched entries first in
supplier-record order and the unmatched zero-count entries after them
in original listing order. -/
theorem C2_stock_entries_cover_offer_ids (ws : List SellerApis.WatchRecord)
    (oids : List String) (hnd : oids.Nodup) :
    (∀ stocks rest, SellerApis.create_stocks ws oids = some (stocks, rest) →
      (∀ oid : String, (stocks.map SellerApis.StockEntry.offer_id).count oid
          = if oid ∈ oids then 1 else 0) ∧
      ∃ matched, stocks = matched ++ rest.map (fun oid => ⟨oid, 0⟩) ∧
        List.Sublist (matched.map SellerApis.StockEntry.offer_id)
          (ws.map SellerApis.WatchRecord.kod) ∧
        List.Sublist rest oids) ∧
    (∀ wh date mstocks mrest,
      SellerApis.market_create_stocks ws oids wh date = some (mstocks, mrest) →
      (∀ oid : String, (mstocks.map SellerApis.MarketStockEntry.sku).count oid
          = if oid ∈ oids then 1 else 0) ∧
      ∃ mmatched, mstocks = mmatched ++ mrest.map
          (fun oid => ⟨oid, wh, [⟨0, "FIT", date⟩]⟩) ∧
        List.Sublist (mmatched.map SellerApis.MarketStockEntry.sku)
          (ws.map SellerApis.WatchRecord.kod) ∧
        List.Sublist mrest oids) := by
  constructor
  · intro stocks rest h
    exact SellerApis.create_stocks_characterization ws oids stocks rest hnd h
  · intro wh date mstocks mrest h
    rw [SellerApis.market_create_stocks_eq] at h
    rcases hc : SellerApis.create_stocks ws oids with _ | ⟨stocks, rest⟩
    · rw [hc] at h; exact absurd h (by simp)
    · rw [hc] at h
      simp only [Option.map, Option.some.injEq, Prod.mk.injEq] at h
      obtain ⟨hmst, hmrest⟩ := h
      obtain ⟨hcount, matched, hdecomp, hsub1, hsub2⟩ :=
        SellerApis.create_stocks_characterization ws oids stocks rest hnd hc
      have hskus : mstocks.map SellerApis.MarketStockEntry.sku
          = stocks.map SellerApis.StockEntry.offer_id := by
        rw [← hmst]
        simp [List.map_map, Function.comp, SellerApis.toMarketStockEntry]
      constructor
      · intro oid
        rw [hskus]
        exact hcount oid
      · refine ⟨matched.map (SellerApis.toMarketStockEntry wh date), ?_, ?_, ?_⟩
        · rw [← hmst, ← hmrest, hdecomp]
          simp [List.map_map, Function.comp, SellerApis.toMarketStockEntry]
        · have : (matched.map (SellerApis.toMarketStockEntry wh date)).map
              SellerApis.MarketStockEntry.sku
              = matched.map SellerApis.StockEntry.offer_id := by
            simp [List.map_map, Function.comp, SellerApis.toMarketStockEntry]
          rw [this]
          exact hsub1
        · rw [← hmrest]
          exact hsub2

/-- C2 counterexample to the unamended claim: with a duplicated
offer id in the catalog listing, the identifier `"A"` appears twice in
the resulting stock entry set, not exactly once. -/
theorem C2_duplicate_offer_ids_counterexample :
    SellerApis.create_stocks ([] : List SellerApis.WatchRecord) ["A", "A"]
      = some ([⟨"A", 0⟩, ⟨"A", 0⟩], ["A", "A"]) ∧
    (([⟨"A", 0⟩, ⟨"A", 0⟩] : List SellerApis.StockEntry).map
        SellerApis.StockEntry.offer_id).count "A" = 2 := by
  decide

/-- Witness for C2 on a duplicate-free offer-id list. -/
theorem C2_stock_entries_cover_offer_ids_witness :
    (([⟨"A", 5⟩, ⟨"B", 0⟩] : List SellerApis.StockEntry).map
        SellerApis.StockEntry.offer_id).count "A"
      = if "A" ∈ ["A", "B"] then 1 else 0 :=
  ((C2_stock_entries_cover_offer_ids [⟨"A", "5", none⟩] ["A", "B"]
      (by decide)).1 [⟨"A", 5⟩, ⟨"B", 0⟩] ["B"] (by decide)).1 "A"

/-- C9 (amended: the catalog offer-id list is assumed free of
duplicate identifiers): in the matching phase of `create_stocks`, on
either platform, no product code yields two stock entries, and every
matched entry is built from the first supplier record carrying its
code — later records with the same code are silently skipped because
the code was removed from the working offer-id set. -/
theorem C9_first_duplicate_record_wins (ws : List SellerApis.WatchRecord)
    (oids : List String) (hnd : oids.Nodup) :
    (∀ st rest, SellerApis.create_stocks_loop ws oids = some (st, rest) →
      (st.map SellerApis.StockEntry.offer_id).Nodup ∧
      ∀ e ∈ st, ∃ w,
        ws.find? (fun x => x.kod == e.offer_id) = some w ∧
        SellerApis.normalize_quantity w.kolichestvo = some e.stock) ∧
    (∀ wh date mst mrest,
      SellerApis.market_create_stocks_loop wh date ws oids = some (mst, mrest) →
      (mst.map SellerApis.MarketStockEntry.sku).Nodup ∧
      ∀ e ∈ mst, ∃ w n,
        ws.find? (fun x => x.kod == e.sku) = some w ∧
        SellerApis.normalize_quantity w.kolichestvo = some n ∧
        e.items = [⟨n, "FIT", date⟩]) := by
  constructor
  · intro st rest h
    have hperm := SellerApis.create_stocks_loop_perm ws oids st rest h
    refine ⟨?_, SellerApis.create_stocks_loop_first_match ws oids st rest hnd h⟩
    exact (hperm.nodup_iff.2 hnd).of_append_left
  · intro wh date mst mrest h
    rw [SellerApis.market_create_stocks_loop_eq] at h
    rcases hl : SellerApis.create_stocks_loop ws oids with _ | ⟨st, rest⟩
    · rw [hl] at h; exact absurd h (by simp)
    · rw [hl] at h
      simp only [Option.map, Option.some.injEq, Prod.mk.injEq] at h
      obtain ⟨hmst, hmrest⟩ := h
      have hperm := SellerApis.create_stocks_loop_perm ws oids st rest hl
      constructor
      · have hskus : mst.map SellerApis.MarketStockEntry.sku
            = st.map SellerApis.StockEntry.offer_id := by
          rw [← hmst]
          simp [List.map_map, Function.comp, SellerApis.toMarketStockEntry]
        rw [hskus]
        exact (hperm.nodup_iff.2 hnd).of_append_left
      · intro e he
        rw [← hmst] at he
        rcases List.mem_map.1 he with ⟨e0, he0, rfl⟩
        obtain ⟨w, hfind, hq⟩ :=
          SellerApis.create_stocks_loop_first_match ws oids st rest hnd hl e0 he0
        exact ⟨w, e0.stock, hfind, hq, rfl⟩

/-- C9 counterexample to the unamended claim: with the code `"A"`
listed twice among the offer ids, the second supplier record carrying
`"A"` also produces a stock entry — it is not skipped. -/
theorem C9_duplicate_record_counterexample :
    SellerApis.create_stocks
      [⟨"A", "5", none⟩, ⟨"A", "7", none⟩] ["A", "A"]
      = some ([⟨"A", 5⟩, ⟨"A", 7⟩], []) := by
  decide

/-- Witness for C9: with records `A→5` then `A→7` and the single
offer id `"A"`, the emitted entry comes from the first record. -/
theorem C9_first_duplicate_record_wins_witness :
    ∃ w, ([⟨"A", "5", none⟩, ⟨"A", "7", none⟩] :
        List SellerApis.WatchRecord).find? (fun x => x.kod == "A") = some w ∧
      SellerApis.normalize_quantity w.kolichestvo = some 5 :=
  ((C9_first_duplicate_record_wins
      [⟨"A", "5", none⟩, ⟨"A", "7", none⟩] ["A"] (by decide)).1
    [⟨"A", 5⟩] [] (by decide)).2 ⟨"A", 5⟩ (by decide)

/-- C6: `create_stocks` mutates the caller's offer-id list in place —
after the call on matching input the list has lost the matched codes,
and `main` in `seller.py` (lines 329-336) then passes that same
mutated list to `create_prices`, which consequently emits no price
entry for any matched product, while the unmutated list would have
produced one. -/
theorem C6_offer_ids_mutation_observed :
    SellerApis.create_stocks [⟨"A", "5", some "100.00 руб."⟩] ["A"]
      = some ([⟨"A", 5⟩], []) ∧
    SellerApis.create_prices [⟨"A", "5", some "100.00 руб."⟩] [] = some [] ∧
    SellerApis.create_prices [⟨"A", "5", some "100.00 руб."⟩] ["A"]
      = some [{ auto_action_enabled := "UNKNOWN", currency_code := "RUB",
                offer_id := "A", old_price := "0", price := "100" }] := by
  decide

namespace SellerApis

lemma create_prices_ids (oids : List String) :
    ∀ (ws : List WatchRecord) (ps : List PriceEntry),
      create_prices ws oids = some ps →
      ps.map PriceEntry.offer_id
        = (ws.filter (fun w => w.kod ∈ oids)).map WatchRecord.kod := by
  intro ws
  induction ws with
  | nil =>
      intro ps h
      simp only [create_prices, Option.some.injEq] at h
      rw [← h]
      rfl
  | cons w ws ih =>
      intro ps h
      simp only [create_prices] at h
      by_cases hm : w.kod ∈ oids
      · rw [if_pos hm] at h
        rcases hp : price_conversion_cell w.tsena with _ | p
        · rw [hp] at h; exact absurd h (by simp)
        · rw [hp] at h
          rcases hr : create_prices ws oids with _ | ps'
          · rw [hr] at h; exact absurd h (by simp)
          · rw [hr] at h
            simp only [Option.some.injEq] at h
            rw [← h]
            simp [List.filter_cons, hm, ih ps' hr]
      · rw [if_neg hm] at h
        have hfil : (w :: ws).filter (fun x => decide (x.kod ∈ oids))
            = ws.filter (fun x => decide (x.kod ∈ oids)) := by
          simp [List.filter_cons, hm]
        rw [hfil]
        exact ih ps h

lemma market_create_prices_ids (oids : List String) :
    ∀ (ws : List WatchRecord) (mps : List MarketPriceEntry),
      market_create_prices ws oids = some mps →
      mps.map MarketPriceEntry.id
        = (ws.filter (fun w => w.kod ∈ oids)).map WatchRecord.kod := by
  intro ws
  induction ws with
  | nil =>
      intro mps h
      simp only [market_create_prices, Option.some.injEq] at h
      rw [← h]
      rfl
  | cons w ws ih =>
      intro mps h
      simp only [market_create_prices] at h
      by_cases hm : w.kod ∈ oids
      · rw [if_pos hm] at h
        rcases hp : price_conversion_cell w.tsena with _ | p
        · rw [hp] at h; exact absurd h (by simp)
        · rw [hp] at h
          have h2 : (match pyInt p with
              | none => (none : Option (List MarketPriceEntry))
              | some v =>
                  match market_create_prices ws oids with
                  | none => none
                  | some ps =>
                      some ({ id := w.kod, price := ⟨v, "RUR"⟩ } :: ps))
              = some mps := h
          rcases hv : pyInt p with _ | v
          · rw [hv] at h2; exact absurd h2 (by simp)
          · rw [hv] at h2
            rcases hr : market_create_prices ws oids with _ | mps'
            · rw [hr] at h2; exact absurd h2 (by simp)
            · rw [hr] at h2
              simp only [Option.some.injEq] at h2
              rw [← h2]
              simp [List.filter_cons, hm, ih mps' hr]
      · rw [if_neg hm] at h
        have hfil : (w :: ws).filter (fun x => decide (x.kod ∈ oids))
            = ws.filter (fun x => decide (x.kod ∈ oids)) := by
          simp [List.filter_cons, hm]
        rw [hfil]
        exact ih mps h

end SellerApis

/-- C5: `create_prices`, on either platform, emits one price entry per
supplier record whose code appears in the offer-id list, in record
order — records matching no offer id contribute nothing, and offer
ids matched by no supplier record yield no entry (unlike stock
building, which defaults them to a zero count). -/
theorem C5_price_entries_exactly_matched (ws : List SellerApis.WatchRecord)
    (oids : List String) :
    (∀ ps, SellerApis.create_prices ws oids = some ps →
      ps.map SellerApis.PriceEntry.offer_id
        = (ws.filter (fun w => w.kod ∈ oids)).map SellerApis.WatchRecord.kod) ∧
    (∀ ps, SellerApis.create_prices ws oids = some ps →
      ∀ oid ∈ oids, oid ∉ ws.map SellerApis.WatchRecord.kod →
        oid ∉ ps.map SellerApis.PriceEntry.offer_id) ∧
    (∀ mps, SellerApis.market_create_prices ws oids = some mps →
      mps.map SellerApis.MarketPriceEntry.id
        = (ws.filter (fun w => w.kod ∈ oids)).map SellerApis.WatchRecord.kod) := by
  refine ⟨SellerApis.create_prices_ids oids ws, ?_,
    SellerApis.market_create_prices_ids oids ws⟩
  intro ps h oid _ hnot hmem
  rw [SellerApis.create_prices_ids oids ws ps h] at hmem
  rcases List.mem_map.1 hmem with ⟨w, hw, rfl⟩
  exact hnot (List.mem_map_of_mem SellerApis.WatchRecord.kod
    (List.mem_of_mem_filter hw))

/-- Witness for C5 on the spec's two-record example against the
catalog `["A", "B", "C"]`: entries for `A` and `B` only. -/
theorem C5_price_entries_exactly_matched_witness :
    (([⟨"UNKNOWN", "RUB", "A", "0", "100"⟩,
       ⟨"UNKNOWN", "RUB", "B", "0", "5990"⟩] :
        List SellerApis.PriceEntry).map SellerApis.PriceEntry.offer_id)
      = (([⟨"A", "5", some "100.00 руб."⟩,
           ⟨"B", ">10", some "5\x27990.00 руб."⟩] :
            List SellerApis.WatchRecord).filter
          (fun w => w.kod ∈ (["A", "B", "C"] : List String))).map
          SellerApis.WatchRecord.kod :=
  (C5_price_entries_exactly_matched
      [⟨"A", "5", some "100.00 руб."⟩, ⟨"B", ">10", some "5\x27990.00 руб."⟩]
      ["A", "B", "C"]).1
    [⟨"UNKNOWN", "RUB", "A", "0", "100"⟩,
     ⟨"UNKNOWN", "RUB", "B", "0", "5990"⟩] (by decide)

namespace SellerApis

lemma seller_offer_ids_loop_stuck (k fuel : Nat) :
    seller_offer_ids_loop (fun _ => ⟨[], 1, ""⟩) fuel k [] = none := by
  induction fuel generalizing k with
  | zero => rfl
  | succ f ih =>
      rw [seller_offer_ids_loop]
      simp only [List.append_nil, List.length_nil]
      rw [if_neg (by decide : ¬ (1 = 0))]
      exact ih (k + 1)

lemma market_offer_ids_loop_stuck (k fuel : Nat) :
    market_offer_ids_loop (fun _ => ⟨[], "tok"⟩) fuel k [] = none := by
  induction fuel generalizing k with
  | zero => rfl
  | succ f ih =>
      rw [market_offer_ids_loop]
      simp only [List.append_nil]
      rw [if_neg (by decide : ¬ (("tok" : String) = ""))]
      exact ih (k + 1)

end SellerApis

/-- C7 counterexample to the unamended claim: the pagination loops do
not terminate for every sequence of server responses.  A platform-A
server that always reports a total of 1 while returning no items keeps
the accumulated count at 0, so the running-total comparison never
succeeds; a platform-B server that always returns a non-empty page
token never triggers the break.  Both loops run forever. -/
theorem C7_nontermination_counterexample :
    SellerApis.seller_listing_diverges (fun _ => ⟨[], 1, ""⟩) ∧
    SellerApis.market_listing_diverges (fun _ => ⟨[], "tok"⟩) := by
  constructor
  · intro fuel
    rw [SellerApis.seller_get_offer_ids,
      SellerApis.seller_offer_ids_loop_stuck 0 fuel]
    rfl
  · intro fuel
    rw [SellerApis.market_get_offer_ids,
      SellerApis.market_offer_ids_loop_stuck 0 fuel]
    rfl

/-- C7 (amended): each pagination loop terminates — after a single
request — whenever its stop condition holds on the first page: for
platform A when the reported total equals the number of items in the
first page (in particular a zero total with an empty first page), for
platform B when the first page's next-page token is empty.  Without
such a response the loops can run forever, as the counterexample
shows. -/
theorem C7_pagination_terminates_on_first_page (fuel : Nat) (hf : 1 ≤ fuel)
    (serverA : Nat → SellerApis.PageA)
    (hA : (serverA 0).total = (serverA 0).items.length)
    (serverB : Nat → SellerApis.PageB)
    (hB : (serverB 0).nextPageToken = "") :
    SellerApis.seller_get_offer_ids fuel serverA
      = some ((serverA 0).items.map SellerApis.ProductA.offer_id) ∧
    SellerApis.market_get_offer_ids fuel serverB
      = some ((serverB 0).entries.map SellerApis.OfferEntryB.shopSku) := by
  obtain ⟨f, rfl⟩ : ∃ f, fuel = f + 1 :=
    ⟨fuel - 1, (Nat.succ_pred_eq_of_pos hf).symm⟩
  constructor
  · rw [SellerApis.seller_get_offer_ids, SellerApis.seller_offer_ids_loop]
    simp only [List.nil_append]
    rw [if_pos hA]
    rfl
  · rw [SellerApis.market_get_offer_ids, SellerApis.market_offer_ids_loop]
    simp only [List.nil_append]
    rw [if_pos hB]
    rfl

/-- Witness for C7: one-page servers whose first response already
meets the stop condition; both listings return after one request. -/
theorem C7_pagination_terminates_on_first_page_witness :
    SellerApis.seller_get_offer_ids 1 (fun _ => ⟨[⟨"x"⟩], 1, ""⟩)
      = some ["x"] ∧
    SellerApis.market_get_offer_ids 1 (fun _ => ⟨[⟨"s"⟩], ""⟩)
      = some ["s"] :=
  C7_pagination_terminates_on_first_page 1 (by decide)
    (fun _ => ⟨[⟨"x"⟩], 1, ""⟩) (by decide)
    (fun _ => ⟨[⟨"s"⟩], ""⟩) (by decide)

/-- C8: `download_stock` deletes the extracted spreadsheet only on the
success path.  When spreadsheet parsing raises, the function exits
with the extracted file still on disk (second component `true`); the
deletion happens (`false`) only when parsing succeeds, and a download
failure aborts before any file is extracted. -/
theorem C8_cleanup_only_on_success_path :
    SellerApis.download_stock ⟨true, none⟩ = (none, true) ∧
    SellerApis.download_stock ⟨true, some []⟩ = (some [], false) ∧
    SellerApis.download_stock ⟨false, none⟩ = (none, false) := by
  refine ⟨rfl, rfl, rfl⟩

/-- C10: every stock entry produced by one platform-B `create_stocks`
call — matched or zero-defaulted — carries the single timestamp
computed before the iteration begins. -/
theorem C10_single_update_timestamp (ws : List SellerApis.WatchRecord)
    (oids : List String) (wh date : String)
    (mstocks : List SellerApis.MarketStockEntry) (mrest : List String)
    (h : SellerApis.market_create_stocks ws oids wh date
        = some (mstocks, mrest)) :
    ∀ e ∈ mstocks, ∀ it ∈ e.items, it.updatedAt = date := by
  rw [SellerApis.market_create_stocks_eq] at h
  rcases hc : SellerApis.create_stocks ws oids with _ | ⟨stocks, rest⟩
  · rw [hc] at h; exact absurd h (by simp)
  · rw [hc] at h
    simp only [Option.map, Option.some.injEq, Prod.mk.injEq] at h
    intro e he it hit
    rw [← h.1] at he
    rcases List.mem_map.1 he with ⟨e0, _, rfl⟩
    simp only [SellerApis.toMarketStockEntry, List.mem_singleton] at hit
    rw [hit]

/-- Witness for C10: a run with one matched and one defaulted entry,
both stamped `"T"`. -/
theorem C10_single_update_timestamp_witness :
    (⟨5, "FIT", "T"⟩ : SellerApis.MarketStockItem).updatedAt = "T" :=
  C10_single_update_timestamp [⟨"A", "5", none⟩] ["A", "B"] "wh" "T"
    [⟨"A", "wh", [⟨5, "FIT", "T"⟩]⟩, ⟨"B", "wh", [⟨0, "FIT", "T"⟩]⟩] ["B"]
    (by decide) ⟨"A", "wh", [⟨5, "FIT", "T"⟩]⟩ (by decide)
    ⟨5, "FIT", "T"⟩ (by decide)

/-- Witness for C4 at the concrete raw price `"12 . 34"`. -/
theorem C4_price_conversion_witness :
    SellerApis.price_conversion "12 . 34"
      = SellerApis.normalize_price_spec "12 . 34" :=
  C4_price_conversion.1 "12 . 34"
